import Mathlib

/-!
Verification development for the `python-launcher` version-resolution engine
(`src/main.rs`, `src/cli.rs`).

Text is embedded as `List Char` (`Str`).  Filesystem state is embedded into the
scanned data: a directory entry carries an `is_file` flag recording whether the
`is_file()` check on its joined path succeeds, and the environment variable
`VIRTUAL_ENV` is passed as an explicit `Option Str`.  Fallible operations
return `Option`; the one panic site (`args.remove(0)` on an empty vector in
`Action::from_main`) is modelled by an outer `Option` whose `none` stands for
the panic.

The crate modules `version.rs` and `path.rs` are not part of the sources; the
definitions taken from them (`RequestedVersion.from_str`, the
requested/discovered compatibility classification, `choose_executable`,
`filter_python_executables`, `find_executable`, `all_executables`) are
modelled from the specification and say so in their doc comments.  Everything
else is translated directly from `src/main.rs` and `src/cli.rs`.
-/

namespace PyLauncher

/-- Text as a list of characters (Rust `String` / `&str`). -/
abbrev Str := List Char

/-- Rust `str::starts_with`. -/
def startsWith : Str → Str → Bool
  | [], _ => true
  | _ :: _, [] => false
  | p :: ps, c :: cs => p == c && startsWith ps cs

/-- Whether a list is empty or starts with an element violating `p` — the
boundary condition making a `takeWhile p` prefix maximal. -/
def headNotSat {α : Type} (p : α → Bool) : List α → Bool
  | [] => true
  | c :: _ => !(p c)

/-- Rust `BufRead::read_line`: the first line of the stream, including the
terminating newline when one is present. -/
def read_line : Str → Str
  | [] => []
  | c :: rest => if c = '\n' then [c] else c :: read_line rest

/-- Rust `str::trim` (whitespace stripped from both ends; inputs are ASCII). -/
def trim (l : Str) : Str :=
  ((l.dropWhile Char.isWhitespace).reverse.dropWhile Char.isWhitespace).reverse

/-- Accumulator-passing core of `splitWhitespaceL`. -/
def splitWhitespaceAux : Str → Str → List Str
  | [], acc => if acc = [] then [] else [acc.reverse]
  | c :: rest, acc =>
    if c.isWhitespace then
      if acc = [] then splitWhitespaceAux rest []
      else acc.reverse :: splitWhitespaceAux rest []
    else splitWhitespaceAux rest (c :: acc)

/-- Rust `str::split_whitespace`: maximal runs of non-whitespace characters. -/
def splitWhitespaceL (l : Str) : List Str := splitWhitespaceAux l []

/-- Numeric value of a digit run (how Rust's `u64::from_str` reads `"42"`). -/
def digitsToNat (cs : Str) : Nat := cs.foldl (fun n c => n * 10 + (c.toNat - 48)) 0

/-- Whether a path string ends with the separator character. -/
def endsSlash : Str → Bool
  | [] => false
  | [c] => c == '/'
  | _ :: c :: rest => endsSlash (c :: rest)

/-- Rust `PathBuf::push` with a relative component: a separator is inserted
unless the buffer is empty or already ends with one. -/
def pathPush (base comp : Str) : Str :=
  if base = [] then comp
  else if endsSlash base then base ++ comp
  else base ++ '/' :: comp

/-- `RequestedVersion` (src/version.rs, declared closed in the spec §3). -/
inductive RequestedVersion where
  | Any : RequestedVersion
  | MajorOnly (major : Nat) : RequestedVersion
  | Exact (major minor : Nat) : RequestedVersion
deriving DecidableEq

/-- `DiscoveredVersion` (spec §3): the version parsed from an installed
executable's file name. -/
inductive DiscoveredVersion where
  | MajorOnly (major : Nat) : DiscoveredVersion
  | Exact (major minor : Nat) : DiscoveredVersion
deriving DecidableEq

/-- `VersionMatch` (spec §3): ternary classification of a
(discovered, requested) pair. -/
inductive VersionMatch where
  | NotAtAll : VersionMatch
  | Loosely : VersionMatch
  | Exactly : VersionMatch
deriving DecidableEq

/-- Modelled from the spec: `RequestedVersion::from_str` (src/version.rs is
absent).  §4.1: empty text → `Any`; text matching `^\d+$` → `MajorOnly`; text
matching `^\d+\.\d+$` → `Exact`; anything else is a parse error, collapsed to
`none`. -/
def RequestedVersion.from_str (cs : Str) : Option RequestedVersion :=
  if cs = [] then some RequestedVersion.Any
  else if cs.takeWhile Char.isDigit = [] then none
  else
    match cs.dropWhile Char.isDigit with
    | [] => some (RequestedVersion.MajorOnly (digitsToNat (cs.takeWhile Char.isDigit)))
    | c :: ms =>
      if c = '.' ∧ ms ≠ [] ∧ ms.all Char.isDigit = true then
        some (RequestedVersion.Exact (digitsToNat (cs.takeWhile Char.isDigit)) (digitsToNat ms))
      else none

/-- Modelled from the spec: parsing the numeric suffix of an executable name
into a `DiscoveredVersion` (src/version.rs is absent).  §4.3 reuses §4.1's
major/major.minor grammar; an empty or unparsable suffix yields no discovered
version (the closed variant of §3 has no constructor for "no number"). -/
def DiscoveredVersion.parse (cs : Str) : Option DiscoveredVersion :=
  match RequestedVersion.from_str cs with
  | some (RequestedVersion.MajorOnly m) => some (DiscoveredVersion.MajorOnly m)
  | some (RequestedVersion.Exact m n) => some (DiscoveredVersion.Exact m n)
  | _ => none

/-- Modelled from the spec: the compatibility classification
`version.matches(&requested_version)` used by `main` (src/version.rs is
absent).  §4.1 `compatibility(discovered, requested)`. -/
def DiscoveredVersion.matches : DiscoveredVersion → RequestedVersion → VersionMatch
  | _, RequestedVersion.Any => VersionMatch.Loosely
  | DiscoveredVersion.MajorOnly dm, RequestedVersion.MajorOnly m =>
    if dm = m then VersionMatch.Exactly else VersionMatch.NotAtAll
  | DiscoveredVersion.Exact dm _, RequestedVersion.MajorOnly m =>
    if dm = m then VersionMatch.Loosely else VersionMatch.NotAtAll
  | DiscoveredVersion.MajorOnly _, RequestedVersion.Exact _ _ => VersionMatch.NotAtAll
  | DiscoveredVersion.Exact dm dn, RequestedVersion.Exact m n =>
    if dm = m ∧ dn = n then VersionMatch.Exactly else VersionMatch.NotAtAll

/-- Strict order on discovered versions (spec §3): majors first; for one major
an absent minor sorts below any present minor. -/
def dvLt : DiscoveredVersion → DiscoveredVersion → Bool
  | DiscoveredVersion.MajorOnly m, DiscoveredVersion.MajorOnly m2 => m < m2
  | DiscoveredVersion.MajorOnly m, DiscoveredVersion.Exact m2 _ => m ≤ m2
  | DiscoveredVersion.Exact m _, DiscoveredVersion.MajorOnly m2 => m < m2
  | DiscoveredVersion.Exact m n, DiscoveredVersion.Exact m2 n2 => m < m2 || (m == m2 && n < n2)

/-- A directory entry as the Search-Path Scanner sees it: its base name and
whether the joined path passes the `is_file()` check. -/
structure Entry where
  name : Str
  is_file : Bool
deriving DecidableEq

/-- `Candidate` (spec §3): a discovered version paired with the joined path;
`is_file` records the filesystem status of that path. -/
structure Candidate where
  version : DiscoveredVersion
  path : Str
  is_file : Bool
deriving DecidableEq

/-- Modelled from the spec: `py::filter_python_executables` (src/path.rs is
absent).  §4.3: an entry whose base name starts with the literal `python` and
whose remaining suffix parses under the §4.1 grammar becomes a candidate;
everything else is skipped. -/
def filter_python_executables (dir_path : Str) (entries : List Entry) : List Candidate :=
  entries.filterMap (fun e =>
    if startsWith ("python".toList) e.name then
      match DiscoveredVersion.parse (e.name.drop 6) with
      | some v => some ⟨v, pathPush dir_path e.name, e.is_file⟩
      | none => none
    else none)

/-- The resolution table `found_versions` of `main` (src/main.rs:45): a
version-to-path map.  Insertion conses a binding at the front, so `lookupT`
(first binding wins) gives `HashMap::insert`'s overwrite semantics. -/
abbrev Table := List (DiscoveredVersion × Str)

/-- `HashMap::get`-style lookup: the most recently inserted binding for a key. -/
def lookupT : Table → DiscoveredVersion → Option Str
  | [], _ => none
  | (k, v) :: t, q => if k = q then some v else lookupT t q

/-- The inner loop of `main` over one directory's candidates
(src/main.rs:48-63): `NotAtAll` skips, `Loosely` inserts when the key is absent
and the path is a regular file, `Exactly` inserts when the path is a regular
file and then breaks out of this directory's scan. -/
def scan_directory (requested : RequestedVersion) : Table → List Candidate → Table
  | t, [] => t
  | t, c :: rest =>
    match c.version.matches requested with
    | VersionMatch.NotAtAll => scan_directory requested t rest
    | VersionMatch.Loosely =>
      if lookupT t c.version = none ∧ c.is_file = true then
        scan_directory requested ((c.version, c.path) :: t) rest
      else scan_directory requested t rest
    | VersionMatch.Exactly =>
      if c.is_file = true then (c.version, c.path) :: t
      else scan_directory requested t rest

/-- The outer loop of `main` (src/main.rs:46-64): fold the per-directory scan
over the ordered candidate lists of the search-path directories. -/
def resolve_candidates (requested : RequestedVersion) (dirs : List (List Candidate)) : Table :=
  dirs.foldl (scan_directory requested) []

/-- `main`'s scan expressed over named directories (src/main.rs:46-48): each
directory's entries run through `filter_python_executables` first. -/
def resolve_path_dirs (requested : RequestedVersion) (dirs : List (Str × List Entry)) : Table :=
  resolve_candidates requested (dirs.map (fun d => filter_python_executables d.1 d.2))

/-- One step of the greatest-key fold: keep the larger of the running maximum
and the next key. -/
def maxStep (acc : Option DiscoveredVersion) (kv : DiscoveredVersion × Str) :
    Option DiscoveredVersion :=
  match acc with
  | none => some kv.1
  | some k => if dvLt k kv.1 then some kv.1 else some k

/-- Greatest key of the table under the spec §3 ordering. -/
def maxKey (t : Table) : Option DiscoveredVersion :=
  t.foldl maxStep none

/-- Modelled from the spec: `py::choose_executable` (src/path.rs is absent).
§4.4: the winner is the table entry whose `DiscoveredVersion` key is greatest
under the §3 ordering; an empty table yields no winner. -/
def choose_executable (t : Table) : Option Str :=
  (maxKey t).bind (lookupT t)

/-- Candidate predicate for an exact-request hit: the requested exact version,
backed by a regular file. -/
def exactHitPred (m n : Nat) (c : Candidate) : Bool :=
  decide (c.version = DiscoveredVersion.Exact m n ∧ c.is_file = true)

/-- The candidate retained for an `Exact` request by the last directory
holding one: within a directory the first regular-file candidate of the
requested exact version (the `Exactly` branch breaks there), and a later
directory's hit supersedes an earlier one. -/
def lastExactHit (m n : Nat) : List (List Candidate) → Option Candidate
  | [] => none
  | d :: rest =>
    match lastExactHit m n rest with
    | some c => some c
    | none => d.find? (exactHitPred m n)

/-- Candidate predicate for a loose hit on key `k`: carries version `k`,
classifies `Loosely`, and is a regular file. -/
def looseHitPred (req : RequestedVersion) (k : DiscoveredVersion) (c : Candidate) : Bool :=
  decide (c.version = k ∧ c.version.matches req = VersionMatch.Loosely ∧ c.is_file = true)

/-- `version_from_flag` (src/cli.rs:86-92): strip a leading `-` and parse the
remainder. -/
def version_from_flag (arg : Str) : Option RequestedVersion :=
  match arg with
  | [] => none
  | c :: rest => if c = '-' then RequestedVersion.from_str rest else none

/-- The path built by `activated_venv_executable` for a virtual-environment
root: push `bin` then `python` onto it. -/
def venv_exec_path (venv_root : Str) : Str :=
  pathPush (pathPush venv_root ("bin".toList)) ("python".toList)

/-- `activated_venv_executable` (src/cli.rs:133-145) with the `VIRTUAL_ENV`
environment lookup passed in explicitly: no filesystem check is made (the
source carries a TODO asking whether one should be). -/
def activated_venv_executable (virtual_env : Option Str) : Option Str :=
  virtual_env.map venv_exec_path

/-- Modelled from the spec: `path::find_executable` (src/path.rs is absent).
§4.5: an explicit version flag outranks the virtual environment, and an active
virtual environment bypasses the §4.4 search entirely; otherwise the scan and
the §4.4 selection run. -/
def find_executable (version : RequestedVersion) (virtual_env : Option Str)
    (dirs : List (List Candidate)) : Option Str :=
  if version = RequestedVersion.Any then
    match activated_venv_executable virtual_env with
    | some executable => some executable
    | none => choose_executable (resolve_candidates version dirs)
  else choose_executable (resolve_candidates version dirs)

/-- Modelled from the spec: `path::all_executables` (src/path.rs is absent).
§6(c): all discovered (version, path) pairs whose path is a regular file. -/
def all_executables (dirs : List (List Candidate)) : List (DiscoveredVersion × Str) :=
  dirs.flatten.filterMap (fun c => if c.is_file then some (c.version, c.path) else none)

/-- `Action` (src/cli.rs:14-22).  The textual help and listing messages are
abstracted to the data they are rendered from (the found path, the executable
table); `Execute` keeps its three fields. -/
inductive Action where
  | Help (executable_path : Str) : Action
  | List (executables : List (DiscoveredVersion × Str)) : Action
  | Execute (launcher_path : Str) (executable : Str) (args : List Str) : Action
deriving DecidableEq

/-- The shared tail of `from_main`'s non-flag branches (src/cli.rs:51-58):
resolve and either execute or report failure. -/
def execute_action (launcher_path : Str) (version : RequestedVersion) (args : List Str)
    (virtual_env : Option Str) (dirs : List (List Candidate)) : Except Str Action :=
  match find_executable version virtual_env dirs with
  | some executable => Except.ok (Action.Execute launcher_path executable args)
  | none => Except.error ("no Python executable found".toList)

/-- `help` (src/cli.rs:62-80), message abstracted to the found path. -/
def help (virtual_env : Option Str) (dirs : List (List Candidate)) : Except Str Action :=
  match find_executable RequestedVersion.Any virtual_env dirs with
  | some found_path => Except.ok (Action.Help found_path)
  | none => Except.error ("no Python executable found".toList)

/-- `list_executables` (src/cli.rs:94-127), output abstracted to the pairs it
is rendered from. -/
def list_executables (dirs : List (List Candidate)) : Except Str Action :=
  if all_executables dirs = [] then Except.error ("No Python executable found".toList)
  else Except.ok (Action.List (all_executables dirs))

/-- `Action::from_main` after the launcher path has been stripped
(src/cli.rs:30-58): help/list flags first, then an optional version flag, then
resolution. -/
def from_main_stripped (launcher_path : Str) (args : List Str) (virtual_env : Option Str)
    (dirs : List (List Candidate)) : Except Str Action :=
  match args with
  | [] => execute_action launcher_path RequestedVersion.Any [] virtual_env dirs
  | flag :: rest =>
    if flag = ("-h".toList) ∨ flag = ("--help".toList) then help virtual_env dirs
    else if flag = ("--list".toList) then list_executables dirs
    else
      match version_from_flag flag with
      | some version => execute_action launcher_path version rest virtual_env dirs
      | none => execute_action launcher_path RequestedVersion.Any (flag :: rest) virtual_env dirs

/-- `Action::from_main` (src/cli.rs:25-59).  `args.remove(0)` panics on an
empty vector; the outer `Option`'s `none` models that panic, and every
non-empty vector takes the total path. -/
def from_main (argv : List Str) (virtual_env : Option Str)
    (dirs : List (List Candidate)) : Option (Except Str Action) :=
  match argv with
  | [] => none
  | launcher_path :: args => some (from_main_stripped launcher_path args virtual_env dirs)

/-- The accepted interpreter paths of `parse_python_shebang`
(src/cli.rs:165-170), in source order. -/
def shebang_accepted_paths : List Str :=
  [("python".toList), ("/usr/bin/python".toList),
   ("/usr/local/bin/python".toList), ("/usr/bin/env python".toList)]

/-- `parse_python_shebang` (src/cli.rs:148-184).  The two-byte `#!` check,
then the first line trimmed, then the first accepted path that the line starts
with.  The source then parses `&acceptable_path[acceptable_path.len()..]` —
the empty tail of the accepted-path constant itself, not of the line — and
that expression is kept verbatim here. -/
def parse_python_shebang (input : Str) : Option RequestedVersion :=
  match input with
  | '#' :: '!' :: rest =>
    (match (shebang_accepted_paths.find?
        (fun p => startsWith p (trim (read_line rest)))) with
     | some acceptable_path =>
       RequestedVersion.from_str (acceptable_path.drop acceptable_path.length)
     | none => none)
  | _ => none

/-- `find_shebang` (src/cli.rs:189-202): first line, `#!` stripped, trimmed. -/
def find_shebang (input : Str) : Option Str :=
  if startsWith ("#!".toList) (read_line input) then
    some (trim ((read_line input).drop 2))
  else none

/-- The accepted interpreter paths of `split_shebang` (src/cli.rs:212-217),
in source order. -/
def split_accepted_paths : List Str :=
  [("/usr/bin/python".toList), ("/usr/local/bin/python".toList),
   ("/usr/bin/env python".toList), ("python".toList)]

/-- `split_shebang` (src/cli.rs:211-247): first accepted path the line starts
with; the digits-and-dots run after it is the version (empty run defaults to
`MajorOnly(2)`); the remainder, trimmed and split on whitespace, is the
argument list. -/
def split_shebang (shebang_line : Str) : Option (RequestedVersion × List Str) :=
  match split_accepted_paths.find? (fun p => startsWith p shebang_line) with
  | none => none
  | some exec_path =>
    (if (shebang_line.drop exec_path.length).takeWhile (fun c => c.isDigit || c == '.') = []
     then some (RequestedVersion.MajorOnly 2)
     else RequestedVersion.from_str
       ((shebang_line.drop exec_path.length).takeWhile (fun c => c.isDigit || c == '.'))).map
      (fun version =>
        (version,
         splitWhitespaceL (trim ((shebang_line.drop exec_path.length).drop
           (((shebang_line.drop exec_path.length).takeWhile
             (fun c => c.isDigit || c == '.')).length)))))

/-- Decidable equality on results, so concrete runs of `from_main` can be
checked by evaluation. -/
instance {e a : Type} [DecidableEq e] [DecidableEq a] : DecidableEq (Except e a) := fun x y =>
  match x, y with
  | Except.ok u, Except.ok v =>
    if h : u = v then isTrue (by rw [h]) else isFalse (fun hh => h (Except.ok.inj hh))
  | Except.error u, Except.error v =>
    if h : u = v then isTrue (by rw [h]) else isFalse (fun hh => h (Except.error.inj hh))
  | Except.ok _, Except.error _ => isFalse (fun hh => Except.noConfusion hh)
  | Except.error _, Except.ok _ => isFalse (fun hh => Except.noConfusion hh)

/-! ## General list lemmas used by the claim proofs -/

theorem takeWhile_eq_self_of_all {α : Type} {p : α → Bool} (l : List α)
    (h : l.all p = true) : l.takeWhile p = l := by
  induction l with
  | nil => rfl
  | cons a l ih =>
    simp only [List.all_cons, Bool.and_eq_true] at h
    simp [List.takeWhile_cons_of_pos h.1, ih h.2]

theorem dropWhile_eq_nil_of_all {α : Type} {p : α → Bool} (l : List α)
    (h : l.all p = true) : l.dropWhile p = [] := by
  induction l with
  | nil => rfl
  | cons a l ih =>
    simp only [List.all_cons, Bool.and_eq_true] at h
    simp [List.dropWhile_cons_of_pos h.1, ih h.2]

theorem all_takeWhile_self {α : Type} {p : α → Bool} (l : List α) :
    (l.takeWhile p).all p = true := by
  induction l with
  | nil => rfl
  | cons a l ih =>
    by_cases hp : p a = true
    · simp [List.takeWhile_cons_of_pos hp, hp, ih]
    · simp [List.takeWhile_cons_of_neg (by simpa using hp)]

theorem takeWhile_append_of_all {α : Type} {p : α → Bool} (l r : List α)
    (hl : l.all p = true) (hr : headNotSat p r = true) :
    (l ++ r).takeWhile p = l := by
  induction l with
  | nil =>
    cases r with
    | nil => rfl
    | cons c cs =>
      have hc : p c = false := by simpa [headNotSat] using hr
      simp only [List.nil_append]
      exact List.takeWhile_cons_of_neg (by simp [hc])
  | cons a l ih =>
    simp only [List.all_cons, Bool.and_eq_true] at hl
    simp [List.cons_append, List.takeWhile_cons_of_pos hl.1, ih hl.2]

theorem dropWhile_append_of_all {α : Type} {p : α → Bool} (l r : List α)
    (hl : l.all p = true) (hr : headNotSat p r = true) :
    (l ++ r).dropWhile p = r := by
  induction l with
  | nil =>
    cases r with
    | nil => rfl
    | cons c cs =>
      have hc : p c = false := by simpa [headNotSat] using hr
      simp only [List.nil_append]
      exact List.dropWhile_cons_of_neg (by simp [hc])
  | cons a l ih =>
    simp only [List.all_cons, Bool.and_eq_true] at hl
    simp [List.cons_append, List.dropWhile_cons_of_pos hl.1, ih hl.2]

theorem find?_append_eq {α : Type} (p : α → Bool) (l r : List α) :
    (l ++ r).find? p =
      match l.find? p with
      | some x => some x
      | none => r.find? p := by
  induction l with
  | nil => rfl
  | cons a l ih =>
    by_cases hp : p a = true
    · simp [List.find?_cons_of_pos _ hp]
    · simp [List.find?_cons_of_neg _ (by simpa using hp), ih]

theorem lookupT_mem {t : Table} {k : DiscoveredVersion} {p : Str}
    (h : lookupT t k = some p) : (k, p) ∈ t := by
  induction t with
  | nil => exact absurd h (by simp [lookupT])
  | cons kv t ih =>
    obtain ⟨k', v'⟩ := kv
    simp only [lookupT] at h
    by_cases hk : k' = k
    · subst hk
      rw [if_pos rfl] at h
      cases h
      exact List.mem_cons_self _ _
    · rw [if_neg hk] at h
      exact List.mem_cons_of_mem _ (ih h)

theorem endsSlash_append (v t : Str) (ht : t ≠ []) :
    endsSlash (v ++ t) = endsSlash t := by
  induction v with
  | nil => rfl
  | cons c v ih =>
    rw [List.cons_append]
    cases hvt : v ++ t with
    | nil =>
      exact absurd (List.append_eq_nil.mp hvt).2 ht
    | cons x xs =>
      rw [hvt] at ih
      have hstep : endsSlash (c :: x :: xs) = endsSlash (x :: xs) := by
        simp [endsSlash]
      rw [hstep]
      exact ih

/-! ## Characterization of the spec-modelled version parser -/

/-- `RequestedVersion.from_str` succeeds exactly on the empty fragment
(giving `Any`), a digit run (giving `MajorOnly`), and two digit runs joined by
a dot (giving `Exact`). -/
theorem from_str_eq_some_iff (cs : Str) (v : RequestedVersion) :
    RequestedVersion.from_str cs = some v ↔
      (cs = [] ∧ v = RequestedVersion.Any) ∨
      (∃ ds, ds ≠ [] ∧ ds.all Char.isDigit = true ∧ cs = ds ∧
        v = RequestedVersion.MajorOnly (digitsToNat ds)) ∨
      (∃ ds ms, ds ≠ [] ∧ ds.all Char.isDigit = true ∧ ms ≠ [] ∧
        ms.all Char.isDigit = true ∧ cs = ds ++ '.' :: ms ∧
        v = RequestedVersion.Exact (digitsToNat ds) (digitsToNat ms)) := by
  constructor
  · intro h
    by_cases hnil : cs = []
    · subst hnil
      have hval : RequestedVersion.from_str [] = some RequestedVersion.Any := rfl
      rw [hval] at h
      cases h
      exact Or.inl ⟨rfl, rfl⟩
    · rw [RequestedVersion.from_str, if_neg hnil] at h
      by_cases htw : cs.takeWhile Char.isDigit = []
      · rw [if_pos htw] at h; exact absurd h (by simp)
      · rw [if_neg htw] at h
        split at h
        · rename_i hdw
          cases h
          refine Or.inr (Or.inl ⟨cs.takeWhile Char.isDigit, htw, all_takeWhile_self cs, ?_, rfl⟩)
          conv_lhs => rw [← List.takeWhile_append_dropWhile (p := Char.isDigit) (l := cs)]
          rw [hdw, List.append_nil]
        · rename_i c ms hdw
          split at h
          · rename_i hcond
            cases h
            obtain ⟨hdot, hms, hmall⟩ := hcond
            subst hdot
            refine Or.inr (Or.inr ⟨cs.takeWhile Char.isDigit, ms, htw,
              all_takeWhile_self cs, hms, hmall, ?_, rfl⟩)
            conv_lhs => rw [← List.takeWhile_append_dropWhile (p := Char.isDigit) (l := cs)]
            rw [hdw]
          · exact absurd h (by simp)
  · rintro (⟨hnil, hv⟩ | ⟨ds, hds, hall, hcs, hv⟩ | ⟨ds, ms, hds, hall, hms, hmall, hcs, hv⟩)
    · subst hnil; subst hv; rfl
    · subst hv
      rw [hcs]
      have h1 : ds.takeWhile Char.isDigit = ds := takeWhile_eq_self_of_all ds hall
      have h2 : ds.dropWhile Char.isDigit = [] := dropWhile_eq_nil_of_all ds hall
      rw [RequestedVersion.from_str, if_neg hds]
      rw [h1, if_neg hds, h2]
    · subst hv
      rw [hcs]
      have h1 : (ds ++ '.' :: ms).takeWhile Char.isDigit = ds :=
        takeWhile_append_of_all ds ('.' :: ms) hall (by show (!(Char.isDigit ('.'))) = true; decide)
      have h2 : (ds ++ '.' :: ms).dropWhile Char.isDigit = '.' :: ms :=
        dropWhile_append_of_all ds ('.' :: ms) hall (by show (!(Char.isDigit ('.'))) = true; decide)
      have hne : ds ++ '.' :: ms ≠ [] := by simp
      rw [RequestedVersion.from_str, if_neg hne, h1, if_neg hds, h2]
      simp [hms, hmall]

/-! ## C3: the reader-based shebang parser -/

/-- C3: evaluation of `parse_python_shebang` at the failing inputs.  The
source slices the accepted-path constant (`&acceptable_path[acceptable_path.len()..]`,
always the empty string) instead of the line, so every recognized shebang
parses the empty fragment: `#!python3.6` yields `Some(Any)` where the claim
expects `Exact(3,6)`, and `#!python` yields `Some(Any)` where the claim
expects `MajorOnly(2)`. -/
theorem C3_parse_python_shebang_bug :
    parse_python_shebang (("#!python3.6\n").toList) = some RequestedVersion.Any ∧
      parse_python_shebang (("#!python\n").toList) = some RequestedVersion.Any :=
  ⟨by decide, by decide⟩

/-! ## C8: version flag recognition -/

/-- C8 (counterexample): the bare argument `-` does not yield `None`: the
fragment after the dash is empty, the empty fragment parses as `Any`
(spec §4.1), and so `version_from_flag "-"` is `Some(Any)`. -/
theorem C8_counterexample :
    version_from_flag (("-").toList) = some RequestedVersion.Any ∧
      version_from_flag (("-").toList) ≠ none :=
  ⟨by decide, by decide⟩

/-- C8 (amended): `version_from_flag` returns `Some` exactly for `-<major>`
(a non-empty digit run), `-<major>.<minor>` (two non-empty digit runs joined
by a dot), and the bare dash `-`, whose empty fragment parses as `Any`; every
other argument yields `None`. -/
theorem C8_version_from_flag_characterization (arg : Str) (v : RequestedVersion) :
    version_from_flag arg = some v ↔
      (arg = ['-'] ∧ v = RequestedVersion.Any) ∨
      (∃ ds, ds ≠ [] ∧ ds.all Char.isDigit = true ∧ arg = '-' :: ds ∧
        v = RequestedVersion.MajorOnly (digitsToNat ds)) ∨
      (∃ ds ms, ds ≠ [] ∧ ds.all Char.isDigit = true ∧ ms ≠ [] ∧
        ms.all Char.isDigit = true ∧ arg = '-' :: (ds ++ '.' :: ms) ∧
        v = RequestedVersion.Exact (digitsToNat ds) (digitsToNat ms)) := by
  cases arg with
  | nil => simp [version_from_flag]
  | cons c rest =>
    by_cases hc : c = '-'
    · subst hc
      have hv : version_from_flag ('-' :: rest) = RequestedVersion.from_str rest := by
        simp [version_from_flag]
      rw [hv, from_str_eq_some_iff]
      simp [List.cons.injEq]
    · simp [version_from_flag, hc, List.cons.injEq]

/-! ## C9: the launcher-path strip in `from_main` -/

/-- C9: `Action::from_main` removes the first argument unconditionally: on the
empty argument vector the removal panics (modelled by `none`), and for every
non-empty argument vector that step is safe — the remainder of `from_main` is
total and a result is always produced. -/
theorem C9_from_main_argv_strip :
    (∀ virtual_env dirs, from_main [] virtual_env dirs = none) ∧
      (∀ launcher_path args virtual_env dirs, ∃ r,
        from_main (launcher_path :: args) virtual_env dirs = some r) :=
  ⟨fun _ _ => rfl, fun _ _ _ _ => ⟨_, rfl⟩⟩

/-! ## C10: the activated-virtual-environment path -/

/-- C10 (counterexample): with `VIRTUAL_ENV` set to the empty string the
function returns the relative path `bin/python`, not `"" ++ "/bin/python"`:
`PathBuf::push` onto an empty buffer inserts no separator. -/
theorem C10_counterexample :
    activated_venv_executable (some []) = some (("bin/python").toList) ∧
      (("bin/python").toList : Str) ≠ (("/bin/python").toList : Str) :=
  ⟨rfl, by decide⟩

/-- C10 (amended): when `VIRTUAL_ENV` is set to a non-empty value `v` that
does not end in a separator, `activated_venv_executable` returns
`Some(v ++ "/bin/python")` — built purely from the environment value, with no
filesystem existence check — and when `VIRTUAL_ENV` is unset it returns
`None`. -/
theorem C10_activated_venv (v : Str) (h1 : v ≠ []) (h2 : endsSlash v = false) :
    activated_venv_executable (some v) = some (v ++ (("/bin/python").toList)) ∧
      activated_venv_executable none = none := by
  constructor
  · have hb : pathPush v (("bin").toList) = v ++ ('/' :: ("bin").toList) := by
      unfold pathPush
      rw [if_neg h1, if_neg (by simp [h2])]
    have hns : endsSlash (v ++ ('/' :: ("bin").toList)) = false := by
      rw [endsSlash_append v _ (by simp)]
      decide
    have hp : pathPush (v ++ ('/' :: ("bin").toList)) (("python").toList)
        = (v ++ ('/' :: ("bin").toList)) ++ ('/' :: ("python").toList) := by
      unfold pathPush
      rw [if_neg (by simp), if_neg (by rw [hns]; exact Bool.false_ne_true)]
    show some (venv_exec_path v) = _
    unfold venv_exec_path
    rw [hb, hp, List.append_assoc]
    rfl
  · rfl

/-- C10 (witness): the repository's own test vector, `VIRTUAL_ENV=/some/path`
giving `/some/path/bin/python`. -/
theorem C10_witness :
    activated_venv_executable (some (("/some/path").toList)) =
      some (("/some/path/bin/python").toList) := by
  have h := (C10_activated_venv (("/some/path").toList) (by decide) (by decide)).1
  exact h.trans (by decide)

/-! ## Resolver lemmas -/

/-- Unfolding of the per-directory scan at a `NotAtAll` candidate. -/
theorem scan_directory_cons_notatall (req : RequestedVersion) (t : Table)
    (c : Candidate) (rest : List Candidate)
    (h : c.version.matches req = VersionMatch.NotAtAll) :
    scan_directory req t (c :: rest) = scan_directory req t rest := by
  simp [scan_directory, h]

/-- Unfolding of the per-directory scan at a `Loosely` candidate. -/
theorem scan_directory_cons_loosely (req : RequestedVersion) (t : Table)
    (c : Candidate) (rest : List Candidate)
    (h : c.version.matches req = VersionMatch.Loosely) :
    scan_directory req t (c :: rest) =
      if lookupT t c.version = none ∧ c.is_file = true then
        scan_directory req ((c.version, c.path) :: t) rest
      else scan_directory req t rest := by
  simp [scan_directory, h]

/-- Unfolding of the per-directory scan at an `Exactly` candidate: the break
ends this directory's scan when the file check passes. -/
theorem scan_directory_cons_exactly (req : RequestedVersion) (t : Table)
    (c : Candidate) (rest : List Candidate)
    (h : c.version.matches req = VersionMatch.Exactly) :
    scan_directory req t (c :: rest) =
      if c.is_file = true then (c.version, c.path) :: t
      else scan_directory req t rest := by
  simp [scan_directory, h]

/-- Every table binding produced by one directory's scan is either inherited
or comes from a scanned regular-file candidate with that version and path. -/
theorem mem_scan_directory (req : RequestedVersion) (t : Table) (l : List Candidate)
    (k : DiscoveredVersion) (p : Str) (h : (k, p) ∈ scan_directory req t l) :
    (k, p) ∈ t ∨ ∃ c, c ∈ l ∧ c.version = k ∧ c.path = p ∧ c.is_file = true := by
  induction l generalizing t with
  | nil => exact Or.inl h
  | cons c rest ih =>
    cases hm : c.version.matches req with
    | NotAtAll =>
      rw [scan_directory_cons_notatall _ _ _ _ hm] at h
      rcases ih t h with h1 | ⟨c2, hc1, hc2⟩
      · exact Or.inl h1
      · exact Or.inr ⟨c2, List.mem_cons_of_mem _ hc1, hc2⟩
    | Loosely =>
      rw [scan_directory_cons_loosely _ _ _ _ hm] at h
      by_cases hg : lookupT t c.version = none ∧ c.is_file = true
      · rw [if_pos hg] at h
        rcases ih _ h with h1 | ⟨c2, hc1, hc2⟩
        · rcases List.mem_cons.mp h1 with h2 | h2
          · rw [Prod.mk.injEq] at h2
            exact Or.inr ⟨c, List.mem_cons_self _ _, h2.1.symm, h2.2.symm, hg.2⟩
          · exact Or.inl h2
        · exact Or.inr ⟨c2, List.mem_cons_of_mem _ hc1, hc2⟩
      · rw [if_neg hg] at h
        rcases ih t h with h1 | ⟨c2, hc1, hc2⟩
        · exact Or.inl h1
        · exact Or.inr ⟨c2, List.mem_cons_of_mem _ hc1, hc2⟩
    | Exactly =>
      rw [scan_directory_cons_exactly _ _ _ _ hm] at h
      by_cases hf : c.is_file = true
      · rw [if_pos hf] at h
        rcases List.mem_cons.mp h with h2 | h2
        · rw [Prod.mk.injEq] at h2
          exact Or.inr ⟨c, List.mem_cons_self _ _, h2.1.symm, h2.2.symm, hf⟩
        · exact Or.inl h2
      · rw [if_neg hf] at h
        rcases ih t h with h1 | ⟨c2, hc1, hc2⟩
        · exact Or.inl h1
        · exact Or.inr ⟨c2, List.mem_cons_of_mem _ hc1, hc2⟩

/-- Every table binding of a folded scan is inherited or comes from a scanned
regular-file candidate with that version and path. -/
theorem mem_foldl_scan (req : RequestedVersion) (dirs : List (List Candidate))
    (k : DiscoveredVersion) (p : Str) :
    ∀ t, (k, p) ∈ dirs.foldl (scan_directory req) t →
      (k, p) ∈ t ∨ ∃ c, c ∈ dirs.flatten ∧ c.version = k ∧ c.path = p ∧ c.is_file = true := by
  induction dirs with
  | nil => intro t ht; exact Or.inl ht
  | cons d rest ih =>
    intro t ht
    rw [List.foldl_cons] at ht
    rcases ih _ ht with h1 | ⟨c, hc1, hc2⟩
    · rcases mem_scan_directory req t d k p h1 with h2 | ⟨c, hc1, hc2⟩
      · exact Or.inl h2
      · exact Or.inr ⟨c, by rw [List.flatten_cons]; exact List.mem_append_left _ hc1, hc2⟩
    · exact Or.inr ⟨c, by rw [List.flatten_cons]; exact List.mem_append_right _ hc1, hc2⟩

/-- Every table binding of the full scan comes from a scanned regular-file
candidate with that version and path. -/
theorem mem_resolve_candidates (req : RequestedVersion) (dirs : List (List Candidate))
    (k : DiscoveredVersion) (p : Str) (h : (k, p) ∈ resolve_candidates req dirs) :
    ∃ c, c ∈ dirs.flatten ∧ c.version = k ∧ c.path = p ∧ c.is_file = true := by
  rcases mem_foldl_scan req dirs k p [] h with h3 | h3
  · exact absurd h3 (by simp)
  · exact h3

/-- Under an exact request no candidate classifies `Loosely`. -/
theorem matches_exact_ne_loosely (dv : DiscoveredVersion) (m n : Nat) :
    dv.matches (RequestedVersion.Exact m n) ≠ VersionMatch.Loosely := by
  cases dv with
  | MajorOnly dm => simp [DiscoveredVersion.matches]
  | Exact dm dn =>
    by_cases h : dm = m ∧ dn = n <;> simp [DiscoveredVersion.matches, h]

/-- Under an exact request a candidate classifies `Exactly` exactly when it
carries the requested version. -/
theorem matches_exact_eq_exactly_iff (dv : DiscoveredVersion) (m n : Nat) :
    dv.matches (RequestedVersion.Exact m n) = VersionMatch.Exactly ↔
      dv = DiscoveredVersion.Exact m n := by
  cases dv with
  | MajorOnly dm => simp [DiscoveredVersion.matches]
  | Exact dm dn =>
    by_cases h : dm = m ∧ dn = n
    · obtain ⟨h1, h2⟩ := h
      subst h1; subst h2
      simp [DiscoveredVersion.matches]
    · simp only [DiscoveredVersion.matches, if_neg h]
      constructor
      · intro hcon; exact absurd hcon (by simp)
      · intro hcon
        rw [DiscoveredVersion.Exact.injEq] at hcon
        exact absurd hcon h

/-- One directory under an exact request: the scan inserts the first
regular-file hit of the requested version and otherwise leaves the table
alone. -/
theorem scan_directory_exact (m n : Nat) (t : Table) (l : List Candidate) :
    scan_directory (RequestedVersion.Exact m n) t l =
      match l.find? (exactHitPred m n) with
      | some c => (DiscoveredVersion.Exact m n, c.path) :: t
      | none => t := by
  induction l generalizing t with
  | nil => rfl
  | cons c rest ih =>
    cases hm : c.version.matches (RequestedVersion.Exact m n) with
    | Loosely => exact absurd hm (matches_exact_ne_loosely c.version m n)
    | NotAtAll =>
      have hv : c.version ≠ DiscoveredVersion.Exact m n := by
        intro he
        rw [(matches_exact_eq_exactly_iff c.version m n).mpr he] at hm
        exact absurd hm (by simp)
      have hpred : ¬ exactHitPred m n c = true := by simp [exactHitPred, hv]
      rw [scan_directory_cons_notatall _ _ _ _ hm, List.find?_cons_of_neg _ hpred]
      exact ih t
    | Exactly =>
      have hv : c.version = DiscoveredVersion.Exact m n :=
        (matches_exact_eq_exactly_iff c.version m n).mp hm
      by_cases hf : c.is_file = true
      · have hpred : exactHitPred m n c = true := by simp [exactHitPred, hv, hf]
        rw [scan_directory_cons_exactly _ _ _ _ hm, if_pos hf,
          List.find?_cons_of_pos _ hpred, hv]
      · have hpred : ¬ exactHitPred m n c = true := by simp [exactHitPred, hf]
        rw [scan_directory_cons_exactly _ _ _ _ hm, if_neg hf,
          List.find?_cons_of_neg _ hpred]
        exact ih t

/-- The table entry for an exact request's key after the whole scan: the hit
of the last directory holding one, else whatever the initial table held. -/
theorem resolve_exact_lookup (m n : Nat) (dirs : List (List Candidate)) :
    ∀ t, lookupT (dirs.foldl (scan_directory (RequestedVersion.Exact m n)) t)
        (DiscoveredVersion.Exact m n) =
      match lastExactHit m n dirs with
      | some c => some c.path
      | none => lookupT t (DiscoveredVersion.Exact m n) := by
  induction dirs with
  | nil => intro t; rfl
  | cons d rest ih =>
    intro t
    rw [List.foldl_cons, ih]
    simp only [lastExactHit]
    cases hrest : lastExactHit m n rest with
    | some c => rfl
    | none =>
      rw [scan_directory_exact]
      cases hd : d.find? (exactHitPred m n) with
      | some c => simp [lookupT]
      | none => rfl

/-- Every key the scan for an exact request ever inserts is that request's
version. -/
theorem resolve_exact_keys (m n : Nat) (dirs : List (List Candidate)) :
    ∀ t, (∀ kv ∈ t, kv.1 = DiscoveredVersion.Exact m n) →
      ∀ kv ∈ dirs.foldl (scan_directory (RequestedVersion.Exact m n)) t,
        kv.1 = DiscoveredVersion.Exact m n := by
  induction dirs with
  | nil => intro t ht; exact ht
  | cons d rest ih =>
    intro t ht
    rw [List.foldl_cons]
    apply ih
    rw [scan_directory_exact]
    cases hd : d.find? (exactHitPred m n) with
    | some c =>
      intro kv hkv
      rcases List.mem_cons.mp hkv with h1 | h1
      · rw [h1]
      · exact ht kv h1
    | none => exact ht

/-- `dvLt` is irreflexive. -/
theorem dvLt_irrefl (k : DiscoveredVersion) : dvLt k k = false := by
  cases k <;> simp [dvLt]

/-- The greatest-key fold is constant on a table whose keys all equal the
running maximum. -/
theorem foldl_maxStep_const (K : DiscoveredVersion) (t : Table)
    (h : ∀ kv ∈ t, kv.1 = K) : t.foldl maxStep (some K) = some K := by
  induction t with
  | nil => rfl
  | cons kv t ih =>
    have hk : kv.1 = K := h kv (List.mem_cons_self _ _)
    rw [List.foldl_cons, show maxStep (some K) kv = some K from by
      simp [maxStep, hk]]
    exact ih (fun kv2 h2 => h kv2 (List.mem_cons_of_mem _ h2))

/-- On a table whose keys all equal `K`, the §4.4 winner is the table's
binding for `K`. -/
theorem choose_executable_const (K : DiscoveredVersion) (t : Table)
    (h : ∀ kv ∈ t, kv.1 = K) : choose_executable t = lookupT t K := by
  cases t with
  | nil => rfl
  | cons kv t2 =>
    have hk : kv.1 = K := h kv (List.mem_cons_self _ _)
    have hmax : maxKey (kv :: t2) = some K := by
      rw [maxKey, List.foldl_cons, show maxStep none kv = some kv.1 from rfl, hk]
      exact foldl_maxStep_const K t2 (fun kv2 h2 => h kv2 (List.mem_cons_of_mem _ h2))
    rw [choose_executable, hmax]
    rfl

/-! ## C1: exact requests across directories -/

/-- C1 (counterexample): directories `[A, B]` both holding a regular-file
`python3.6`; under the request `Exact(3,6)` the winning path is `B`'s, not
`A`'s — the `break` in the `Exactly` branch only ends the inner per-directory
loop, and `HashMap::insert` then overwrites the entry — contradicting "the
winning path is the one from the first such directory" and "later directories
cannot replace the table entry for that key". -/
theorem C1_counterexample :
    choose_executable (resolve_path_dirs (RequestedVersion.Exact 3 6)
      [(("A").toList, [⟨("python3.6").toList, true⟩]),
       (("B").toList, [⟨("python3.6").toList, true⟩])]) =
      some (("B/python3.6").toList) ∧
    (("B/python3.6").toList : Str) ≠ (("A/python3.6").toList : Str) :=
  ⟨by decide, by decide⟩

/-- C1 (amended): for the request `Exact(m,n)` the winning path — and the
table entry for the key `Exact(m,n)` — is the first regular-file candidate of
that version from the **last** directory in scan order holding one: an
`Exactly` hit stops only that directory's remaining entries, and a later
directory's hit overwrites the entry.  When the later directories hold no such
candidate the earlier directory's path wins, as in the spec's `[A, B]`
example (`A` holds `python3.6`, `B` holds only `python3.7`, request
`Exact(3,6)`: `A`'s path is the result). -/
theorem C1_exact_resolution (m n : Nat) (dirs : List (List Candidate)) :
    choose_executable (resolve_candidates (RequestedVersion.Exact m n) dirs) =
      (lastExactHit m n dirs).map Candidate.path ∧
    lookupT (resolve_candidates (RequestedVersion.Exact m n) dirs)
        (DiscoveredVersion.Exact m n) =
      (lastExactHit m n dirs).map Candidate.path ∧
    choose_executable (resolve_path_dirs (RequestedVersion.Exact 3 6)
      [(("A").toList, [⟨("python3.6").toList, true⟩]),
       (("B").toList, [⟨("python3.7").toList, true⟩])]) =
      some (("A/python3.6").toList) := by
  have hkeys : ∀ kv ∈ resolve_candidates (RequestedVersion.Exact m n) dirs,
      kv.1 = DiscoveredVersion.Exact m n := by
    unfold resolve_candidates
    exact resolve_exact_keys m n dirs [] (by simp)
  have hlook : lookupT (resolve_candidates (RequestedVersion.Exact m n) dirs)
      (DiscoveredVersion.Exact m n) = (lastExactHit m n dirs).map Candidate.path := by
    unfold resolve_candidates
    rw [resolve_exact_lookup m n dirs []]
    cases lastExactHit m n dirs <;> rfl
  exact ⟨(choose_executable_const _ _ hkeys).trans hlook, hlook, by decide⟩

/-! ## C5: empty resolution table -/

/-- C5: evaluation at the failing input — no search-path candidates, a bare
invocation, no virtual environment.  `Action::from_main` surfaces the single
terminal error value as claimed, but the table is empty and the §4.4 winner is
`None`, which `main` (src/main.rs:66) immediately `.unwrap()`s: the program
panics there instead of reporting the error. -/
theorem C5_empty_table :
    from_main [("py").toList] none [] =
      some (Except.error (("no Python executable found").toList)) ∧
    choose_executable (resolve_candidates RequestedVersion.Any []) = none :=
  ⟨by decide, rfl⟩

/-! ## C7: only regular files enter the table -/

/-- C7: every path held by the resolution table — and hence every winning
path — comes from a scanned candidate that carried that key's version and
passed the `is_file()` check at insertion; a candidate that is not a regular
file is never inserted in either branch. -/
theorem C7_table_paths_are_files (req : RequestedVersion) (dirs : List (List Candidate)) :
    (∀ k p, lookupT (resolve_candidates req dirs) k = some p →
      ∃ c, c ∈ dirs.flatten ∧ c.version = k ∧ c.path = p ∧ c.is_file = true) ∧
    (∀ p, choose_executable (resolve_candidates req dirs) = some p →
      ∃ c, c ∈ dirs.flatten ∧ c.path = p ∧ c.is_file = true) := by
  constructor
  · intro k p h
    exact mem_resolve_candidates req dirs k p (lookupT_mem h)
  · intro p h
    rw [choose_executable] at h
    cases hmax : maxKey (resolve_candidates req dirs) with
    | none => rw [hmax] at h; exact absurd h (by simp)
    | some K =>
      rw [hmax] at h
      rcases mem_resolve_candidates req dirs K p (lookupT_mem h) with ⟨c, hc1, _, hc3, hc4⟩
      exact ⟨c, hc1, hc3, hc4⟩

/-- C7 (witness): a concrete one-candidate scan, its table binding traced back
to the regular-file candidate that produced it. -/
theorem C7_witness :
    ∃ c, c ∈ ([[⟨DiscoveredVersion.MajorOnly 3, ("A/python3").toList, true⟩]] :
        List (List Candidate)).flatten ∧
      c.version = DiscoveredVersion.MajorOnly 3 ∧
      c.path = ("A/python3").toList ∧ c.is_file = true :=
  (C7_table_paths_are_files RequestedVersion.Any
    [[⟨DiscoveredVersion.MajorOnly 3, ("A/python3").toList, true⟩]]).1
    (DiscoveredVersion.MajorOnly 3) (("A/python3").toList) (by decide)

/-! ## C6: loose insertions keep the first occurrence -/

/-- One directory containing no `Exactly` candidate: the scan keeps an
existing binding, and fills an absent one with the directory's first loose
regular-file hit for the key. -/
theorem scan_directory_noexact (req : RequestedVersion) (l : List Candidate)
    (hl : ∀ c ∈ l, c.version.matches req ≠ VersionMatch.Exactly) :
    ∀ t k, lookupT (scan_directory req t l) k =
      match lookupT t k with
      | some p => some p
      | none => (l.find? (looseHitPred req k)).map Candidate.path := by
  induction l with
  | nil =>
    intro t k
    show lookupT t k = _
    cases hlk : lookupT t k with
    | none => rfl
    | some p => rfl
  | cons c rest ih =>
    have hrest : ∀ c2 ∈ rest, c2.version.matches req ≠ VersionMatch.Exactly :=
      fun c2 h2 => hl c2 (List.mem_cons_of_mem _ h2)
    intro t k
    cases hm : c.version.matches req with
    | Exactly => exact absurd hm (hl c (List.mem_cons_self _ _))
    | NotAtAll =>
      have hpred : ¬ looseHitPred req k c = true := by
        simp [looseHitPred, hm]
      rw [scan_directory_cons_notatall _ _ _ _ hm, ih hrest t k,
        List.find?_cons_of_neg _ hpred]
    | Loosely =>
      rw [scan_directory_cons_loosely _ _ _ _ hm]
      by_cases hg : lookupT t c.version = none ∧ c.is_file = true
      · rw [if_pos hg, ih hrest _ k]
        by_cases hk : c.version = k
        · subst hk
          have hpred : looseHitPred req c.version c = true := by
            simp [looseHitPred, hm, hg.2]
          rw [show lookupT ((c.version, c.path) :: t) c.version = some c.path from by
            simp [lookupT], hg.1, List.find?_cons_of_pos _ hpred]
          rfl
        · have hpred : ¬ looseHitPred req k c = true := by
            simp [looseHitPred, hk]
          rw [show lookupT ((c.version, c.path) :: t) k = lookupT t k from by
            simp [lookupT, hk], List.find?_cons_of_neg _ hpred]
      · rw [if_neg hg, ih hrest t k]
        by_cases hk : c.version = k
        · subst hk
          cases hlk : lookupT t c.version with
          | some p => rfl
          | none =>
            have hf : c.is_file = false := by
              cases hcf : c.is_file with
              | true => exact absurd ⟨hlk, hcf⟩ hg
              | false => rfl
            have hpred : ¬ looseHitPred req c.version c = true := by
              simp [looseHitPred, hf]
            rw [List.find?_cons_of_neg _ hpred]
        · have hpred : ¬ looseHitPred req k c = true := by
            simp [looseHitPred, hk]
          rw [List.find?_cons_of_neg _ hpred]

/-- The folded scan over directories containing no `Exactly` candidate:
an absent key ends bound to the first loose regular-file hit of the flattened
candidate stream. -/
theorem foldl_scan_noexact (req : RequestedVersion) (dirs : List (List Candidate))
    (hd : ∀ c ∈ dirs.flatten, c.version.matches req ≠ VersionMatch.Exactly) :
    ∀ t k, lookupT (dirs.foldl (scan_directory req) t) k =
      match lookupT t k with
      | some p => some p
      | none => (dirs.flatten.find? (looseHitPred req k)).map Candidate.path := by
  induction dirs with
  | nil =>
    intro t k
    show lookupT t k = _
    cases hlk : lookupT t k with
    | none => rfl
    | some p => rfl
  | cons d rest ih =>
    have hdid : ∀ c ∈ d, c.version.matches req ≠ VersionMatch.Exactly := by
      intro c hc
      exact hd c (by rw [List.flatten_cons]; exact List.mem_append_left _ hc)
    have hdrest : ∀ c ∈ rest.flatten, c.version.matches req ≠ VersionMatch.Exactly := by
      intro c hc
      exact hd c (by rw [List.flatten_cons]; exact List.mem_append_right _ hc)
    intro t k
    rw [List.foldl_cons, ih hdrest _ k, scan_directory_noexact req d hdid t k,
      List.flatten_cons, find?_append_eq]
    cases hlk : lookupT t k with
    | some p => rfl
    | none =>
      cases hfd : d.find? (looseHitPred req k) with
      | some c => rfl
      | none => rfl

/-- C6 (counterexample): with directories
`[[python3 (MajorOnly 3), python3.6], [python3.6]]` and the request
`MajorOnly(3)`, the `Exactly` hit on `python3` breaks out of the first
directory before its `python3.6` is examined, so the table retains the
**second** directory's `python3.6` — not the first loosely-matching candidate
of that version in scan order. -/
theorem C6_counterexample :
    lookupT (resolve_candidates (RequestedVersion.MajorOnly 3)
        [[⟨DiscoveredVersion.MajorOnly 3, ("A/python3").toList, true⟩,
          ⟨DiscoveredVersion.Exact 3 6, ("A/python3.6").toList, true⟩],
         [⟨DiscoveredVersion.Exact 3 6, ("B/python3.6").toList, true⟩]])
      (DiscoveredVersion.Exact 3 6) = some (("B/python3.6").toList) ∧
    ([[⟨DiscoveredVersion.MajorOnly 3, ("A/python3").toList, true⟩,
       ⟨DiscoveredVersion.Exact 3 6, ("A/python3.6").toList, true⟩],
      [⟨DiscoveredVersion.Exact 3 6, ("B/python3.6").toList, true⟩]] :
        List (List Candidate)).flatten.find?
      (looseHitPred (RequestedVersion.MajorOnly 3) (DiscoveredVersion.Exact 3 6)) =
      some ⟨DiscoveredVersion.Exact 3 6, ("A/python3.6").toList, true⟩ ∧
    (("B/python3.6").toList : Str) ≠ (("A/python3.6").toList : Str) :=
  ⟨by decide, by decide, by decide⟩

/-- C6 (amended): a `Loosely` candidate is inserted only when its key is
absent — a candidate whose key is already bound leaves the scan unchanged —
and consequently, when no candidate of the stream classifies `Exactly` (so no
directory scan is cut short by the break), the entry retained for a key is the
first loosely-matching regular-file candidate with that `DiscoveredVersion` in
scan order. -/
theorem C6_loose_insert_first (req : RequestedVersion) :
    (∀ t (c : Candidate) rest p, c.version.matches req = VersionMatch.Loosely →
      lookupT t c.version = some p →
      scan_directory req t (c :: rest) = scan_directory req t rest) ∧
    (∀ dirs k, (∀ c ∈ List.flatten dirs, c.version.matches req ≠ VersionMatch.Exactly) →
      lookupT (resolve_candidates req dirs) k =
        (List.find? (looseHitPred req k) (List.flatten dirs)).map Candidate.path) := by
  constructor
  · intro t c rest p hm hp
    rw [scan_directory_cons_loosely _ _ _ _ hm, if_neg]
    intro hcon
    rw [hp] at hcon
    exact absurd hcon.1 (by simp)
  · intro dirs k hne
    unfold resolve_candidates
    rw [foldl_scan_noexact req dirs hne [] k]
    rfl

/-- C6 (witness): two directories each holding a loosely-matching regular-file
`python3.6` under the request `MajorOnly(3)`; no candidate classifies
`Exactly`, and the first directory's path is the one retained. -/
theorem C6_witness :
    lookupT (resolve_candidates (RequestedVersion.MajorOnly 3)
        [[⟨DiscoveredVersion.Exact 3 6, ("A/python3.6").toList, true⟩],
         [⟨DiscoveredVersion.Exact 3 6, ("B/python3.6").toList, true⟩]])
      (DiscoveredVersion.Exact 3 6) = some (("A/python3.6").toList) := by
  have h := (C6_loose_insert_first (RequestedVersion.MajorOnly 3)).2
    [[⟨DiscoveredVersion.Exact 3 6, ("A/python3.6").toList, true⟩],
     [⟨DiscoveredVersion.Exact 3 6, ("B/python3.6").toList, true⟩]]
    (DiscoveredVersion.Exact 3 6) (by decide)
  exact h.trans (by decide)

/-! ## C4: splitting a shebang line -/

/-- C4: for a shebang line beginning with a recognized interpreter path (the
first match in source order), followed by the maximal — possibly empty — run
of ASCII digits and dots and then trailing text, `split_shebang` returns the
version parsed from that run (`MajorOnly(2)` when the run is empty) paired
with the trailing text split on whitespace; in particular
`find_shebang`/`split_shebang` on `"#! /usr/bin/env python -S"` yield
`(MajorOnly(2), ["-S"])` (see the witness). -/
theorem C4_split_shebang (shebang_line p run rest : Str) (v : RequestedVersion)
    (hfind : split_accepted_paths.find? (fun q => startsWith q shebang_line) = some p)
    (hdrop : shebang_line.drop p.length = run ++ rest)
    (hrun : run.all (fun c => c.isDigit || c == '.') = true)
    (hrest : headNotSat (fun c => c.isDigit || c == '.') rest = true)
    (hv : (if run = [] then some (RequestedVersion.MajorOnly 2)
           else RequestedVersion.from_str run) = some v) :
    split_shebang shebang_line = some (v, splitWhitespaceL (trim rest)) := by
  have htake : (shebang_line.drop p.length).takeWhile (fun c => c.isDigit || c == '.') = run := by
    rw [hdrop]
    exact takeWhile_append_of_all run rest hrun hrest
  have hdrop2 : (shebang_line.drop p.length).drop run.length = rest := by
    rw [hdrop]
    exact List.drop_left run rest
  have hsplit : split_shebang shebang_line =
      (if (shebang_line.drop p.length).takeWhile (fun c => c.isDigit || c == '.') = []
       then some (RequestedVersion.MajorOnly 2)
       else RequestedVersion.from_str
         ((shebang_line.drop p.length).takeWhile (fun c => c.isDigit || c == '.'))).map
        (fun version =>
          (version,
           splitWhitespaceL (trim ((shebang_line.drop p.length).drop
             (((shebang_line.drop p.length).takeWhile
               (fun c => c.isDigit || c == '.')).length))))) := by
    unfold split_shebang
    rw [hfind]
  rw [hsplit, htake, hdrop2, hv]
  rfl

/-- C4 (witness): `"#! /usr/bin/env python -S"` — the shebang strip yields
`/usr/bin/env python -S`, and splitting it yields `MajorOnly(2)` with argument
list `["-S"]`. -/
theorem C4_witness :
    find_shebang (("#! /usr/bin/env python -S\n").toList) =
      some (("/usr/bin/env python -S").toList) ∧
    split_shebang (("/usr/bin/env python -S").toList) =
      some (RequestedVersion.MajorOnly 2, [(("-S").toList)]) := by
  constructor
  · decide
  · have h := C4_split_shebang (("/usr/bin/env python -S").toList)
      (("/usr/bin/env python").toList) [] ((" -S").toList) (RequestedVersion.MajorOnly 2)
      (by decide) (by decide) (by decide) (by decide) (by decide)
    exact h.trans (by decide)

/-! ## C2: active virtual environment bypasses resolution -/

/-- C2: with no explicit version flag (and not in help or list mode) and an
active `VIRTUAL_ENV`, `from_main` selects that environment's interpreter
directly: the result is the environment's `bin/python` for **every** search
path `dirs`, so no search-path version resolution contributes to it. -/
theorem C2_venv_bypass (launcher_path : Str) (args : List Str) (venv_root : Str)
    (dirs : List (List Candidate))
    (hflag : ∀ flag rest2, args = flag :: rest2 →
      flag ≠ ("-h").toList ∧ flag ≠ ("--help").toList ∧
        flag ≠ ("--list").toList ∧ version_from_flag flag = none) :
    from_main (launcher_path :: args) (some venv_root) dirs =
      some (Except.ok (Action.Execute launcher_path (venv_exec_path venv_root) args)) := by
  cases args with
  | nil => rfl
  | cons flag rest =>
    obtain ⟨h1, h2, h3, h4⟩ := hflag flag rest rfl
    have hstr : from_main_stripped launcher_path (flag :: rest) (some venv_root) dirs =
        (if flag = ("-h").toList ∨ flag = ("--help").toList then
          help (some venv_root) dirs
         else if flag = ("--list").toList then list_executables dirs
         else
           match version_from_flag flag with
           | some version =>
             execute_action launcher_path version rest (some venv_root) dirs
           | none =>
             execute_action launcher_path RequestedVersion.Any (flag :: rest)
               (some venv_root) dirs) := rfl
    have hmain : from_main (launcher_path :: flag :: rest) (some venv_root) dirs =
        some (from_main_stripped launcher_path (flag :: rest) (some venv_root) dirs) := rfl
    rw [hmain, hstr,
      if_neg (fun hcon => hcon.elim (fun he => h1 he) (fun he => h2 he)), if_neg h3, h4]
    rfl

/-- C2 (witness): `py script.py` with `VIRTUAL_ENV=/venv` and an empty search
path still executes `/venv/bin/python script.py`. -/
theorem C2_witness :
    from_main [("py").toList, ("script.py").toList] (some (("/venv").toList)) [] =
      some (Except.ok (Action.Execute (("py").toList) (("/venv/bin/python").toList)
        [(("script.py").toList)])) := by
  have h := C2_venv_bypass (("py").toList) [(("script.py").toList)] (("/venv").toList) []
    (by intro flag rest2 heq; cases heq; exact ⟨by decide, by decide, by decide, by decide⟩)
  exact h.trans (by decide)

end PyLauncher
